import Mathlib

/-!
Verification of the chat-reply post-processing pipeline of the
Tablaperiodica repository: the Reply Shaper (`makeConciseReply`,
`truncateAtSentenceBoundary`, `trimDanglingConnector` in
`src/app-temp/src/hooks/useGroqAI.ts`) and the Markdown Renderer
(`formatBotText`, `renderMarkdownTable` in
`src/app-temp/src/components/QuimiBot.tsx`).

Strings are modelled as `List Char` (one element per Unicode scalar;
JavaScript counts UTF-16 code units, which only differs on astral-plane
characters). The JavaScript whitespace class is modelled by the ASCII
whitespace characters, and regex line boundaries by the newline
character, matching the inputs the functions are used on.
-/

set_option maxRecDepth 20000

/-- ASCII whitespace, modelling the JavaScript regex class and the
whitespace set of `String.prototype.trim`. -/
def isWs (c : Char) : Bool :=
  c = ' ' || c = '\t' || c = '\n' || c = '\r' || c = '\x0b' || c = '\x0c'

/-- ASCII lower-casing, modelling case-insensitive (`/i`) matching of the
ASCII literals in the source regexes. -/
def asciiLower (c : Char) : Char :=
  if 'A' ≤ c && c ≤ 'Z' then Char.ofNat (c.toNat + 32) else c

/-- Split on the newline character, exactly like `text.split('\n')` in
JavaScript: the empty text yields one empty piece, a trailing newline
yields a trailing empty piece. -/
def splitNl : List Char → List (List Char)
  | [] => [[]]
  | c :: rest =>
    if c = '\n' then [] :: splitNl rest
    else
      match splitNl rest with
      | [] => [[c]]
      | p :: ps => (c :: p) :: ps

/-- Rejoin pieces with newlines, like `lines.join('\n')`. -/
def joinNl : List (List Char) → List Char
  | [] => []
  | [l] => l
  | l :: ls => l ++ '\n' :: joinNl ls

/-- Drop leading whitespace, the first half of `String.prototype.trim`. -/
def dropLeadingWs (l : List Char) : List Char := l.dropWhile isWs

/-- Drop trailing whitespace, modelling `String.prototype.trimEnd`. -/
def dropTrailingWs (l : List Char) : List Char :=
  (l.reverse.dropWhile isWs).reverse

/-- `String.prototype.trim`: whitespace stripped from both ends. -/
def trimWs (l : List Char) : List Char := dropLeadingWs (dropTrailingWs l)

/-- Greatest index whose character satisfies `p`, or `none`. -/
def lastIdx? (p : Char → Bool) : List Char → Option Nat
  | [] => none
  | c :: rest =>
    match lastIdx? p rest with
    | some i => some (i + 1)
    | none => if p c then some 0 else none

/-- View an optional index the way JavaScript reports string searches:
`-1` for absent. -/
def optIdx : Option Nat → Int
  | some i => (i : Int)
  | none => -1

/-- Models `text.lastIndexOf(c)` for a single character, as in the source. -/
def lastIndexOfC (c : Char) (l : List Char) : Int :=
  optIdx (lastIdx? (fun x => x = c) l)

/-- Consume `pat` case-insensitively from the front of `t`; return the
rest on success. Models matching an ASCII literal under the `/i` flag. -/
def matchCI : List Char → List Char → Option (List Char)
  | [], t => some t
  | _ :: _, [] => none
  | p :: ps, c :: cs =>
    if asciiLower c = asciiLower p then matchCI ps cs else none

/-- Consume one optional literal character, modelling a `x?` regex atom
whose backtracking is irrelevant because the continuation never fails on
the consumed character. -/
def stripOpt (c : Char) : List Char → List Char
  | [] => []
  | x :: rest => if x = c then rest else x :: rest

/-- Models `text.replace(/^(¡?buena pregunta!?\s*)/i, '')`
(`useGroqAI.ts:188`). -/
def stripFiller1 (t : List Char) : List Char :=
  match matchCI "buena pregunta".toList (stripOpt '¡' t) with
  | some r => (stripOpt '!' r).dropWhile isWs
  | none => t

/-- Models `text.replace(/^(mira,?\s*esto es interesante\.?\s*)/i, '')`
(`useGroqAI.ts:189`). -/
def stripFiller2 (t : List Char) : List Char :=
  match matchCI "mira".toList t with
  | some r =>
    match matchCI "esto es interesante".toList ((stripOpt ',' r).dropWhile isWs) with
    | some r2 => (stripOpt '.' r2).dropWhile isWs
    | none => t
  | none => t

/-- The opening of `makeConciseReply` (`useGroqAI.ts:187-190`): both
filler-opener replacements followed by `.trim()`. -/
def stripFillers (t : List Char) : List Char :=
  trimWs (stripFiller2 (stripFiller1 t))

/-- The Spanish connector denylist of `trimDanglingConnector`
(`useGroqAI.ts:82`), lower-case. -/
def connectors : List (List Char) :=
  ["de", "del", "y", "e", "o", "u", "con", "para", "por", "en", "a", "que"].map
    String.toList

/-- Does `t` end with the connector word `c` (case-insensitively),
immediately preceded by a whitespace character? This is exactly when the
anchored regex `/\s+(…)$/i` of `trimDanglingConnector` matches with
alternative `c`. -/
def hasConnSuffix (c : List Char) (t : List Char) : Bool :=
  c.reverse.isPrefixOf (t.reverse.map asciiLower) &&
    match (t.reverse.drop c.length).head? with
    | some w => isWs w
    | none => false

/-- Source function `trimDanglingConnector` (`useGroqAI.ts:80-84`):
`text.replace(/\s+(de|del|y|e|o|u|con|para|por|en|a|que)$/i, '').trim()`.
The single (first) replacement removes the trailing whitespace run and
the connector word; the subsequent `.trim()` removes any remaining
boundary whitespace, so dropping just the connector word before trimming
is equivalent. -/
def trimDanglingConnector (t : List Char) : List Char :=
  match connectors.find? (fun c => hasConnSuffix c t) with
  | some c => trimWs (t.take (t.length - c.length))
  | none => trimWs t

/-- Source function `truncateAtSentenceBoundary` (`useGroqAI.ts:86-110`). The source
computes `Math.floor(maxChars * 0.55)`; for the only call site
(`maxChars = 520`) the floating-point product floors to `286`, which the
rational `maxChars * 55 / 100` reproduces. -/
def truncateAtSentenceBoundary (text : List Char) (maxChars : Nat) : List Char :=
  if text.length ≤ maxChars then trimDanglingConnector text
  else
    let chunk := dropTrailingWs (text.take maxChars)
    let lastPunctuation :=
      max (max (max (max (lastIndexOfC '.' chunk) (lastIndexOfC '!' chunk))
        (lastIndexOfC '?' chunk)) (lastIndexOfC ';' chunk)) (lastIndexOfC ':' chunk)
    if lastPunctuation ≥ ((maxChars * 55 / 100 : Nat) : Int) then
      trimDanglingConnector (chunk.take (lastPunctuation.toNat + 1))
    else
      let lastSpace := lastIndexOfC ' ' chunk
      if lastSpace > 0 then
        trimDanglingConnector (chunk.take lastSpace.toNat) ++ ['…']
      else
        trimDanglingConnector chunk ++ ['…']

/-- One line matches the table-row test `/^\|.+\|/m` (`useGroqAI.ts:194`):
it starts with `|` and has another `|` at index at least 2 (the `.+`
demands a non-empty span between the pipes, and `.` cannot cross the line
boundary). -/
def matchRow (l : List Char) : Bool :=
  l.head? = some '|' && (l.drop 2).contains '|'

/-- Source flag `hasTable` (`useGroqAI.ts:194`): some line of the text matches the table-row pattern. -/
def hasTable (t : List Char) : Bool := (splitNl t).any matchRow

/-- The table-mode trailing-row replacement of `makeConciseReply`
(`useGroqAI.ts:198-200`): `text.replace(/\n\|[^\n]*$/m, m => …)`. With
the `m` flag, `$` matches at every line end, so the first line after a
newline that starts with `|` is the (only) match; the callback keeps it
when, after `trimEnd`, it ends with `|`, and deletes it (with its leading
newline) otherwise. This helper scans the lines after the first. -/
def tableFixTail : List (List Char) → List (List Char)
  | [] => []
  | l :: rest =>
    if l.head? = some '|' then
      if (dropTrailingWs l).getLast? = some '|' then l :: rest else rest
    else l :: tableFixTail rest

/-- Table mode, length within the 2400 ceiling: the text with the
replacement above applied (`useGroqAI.ts:196-201`). -/
def tableTrimWithin (t : List Char) : List Char :=
  match splitNl t with
  | [] => t
  | l :: rest => joinNl (l :: tableFixTail rest)

/-- Greatest index `i` with `t[i] = '|'` and `t[i+1] = '\n'`, i.e.
`chunk.lastIndexOf('|\n')` (`useGroqAI.ts:204`). -/
def lastPipeNl : List Char → Option Nat
  | [] => none
  | [_] => none
  | c1 :: c2 :: rest =>
    match lastPipeNl (c2 :: rest) with
    | some i => some (i + 1)
    | none => if c1 = '|' && c2 = '\n' then some 0 else none

/-- The non-empty trimmed lines kept by line mode, at most six
(`useGroqAI.ts:211-215`): split on newlines, trim each, drop empties,
keep the first `6`. The splitting and capping are applied to the
filler-stripped text, as in the source. -/
def cleanLines (s : List Char) : List (List Char) :=
  (((splitNl (stripFillers s)).map trimWs).filter (fun l => !l.isEmpty)).take 6

/-- Models `lines.join('\n')` over the kept lines (`useGroqAI.ts:217`). -/
def compactOf (s : List Char) : List Char := joinNl (cleanLines s)

/-- Source function `makeConciseReply` (`useGroqAI.ts:186-219`). -/
def makeConciseReply (text : List Char) : List Char :=
  let w := stripFillers text
  if hasTable w then
    if w.length ≤ 2400 then tableTrimWithin w
    else
      let chunk := w.take 2400
      match lastPipeNl chunk with
      | some i => if 0 < i then chunk.take (i + 1) else chunk
      | none => chunk
  else truncateAtSentenceBoundary (compactOf text) 520

/-- The raw-reply construction of `sendMessage` (`useGroqAI.ts:156`):
`completion.choices[0]?.message?.content?.trim() || '(sin respuesta)'`.
A missing or whitespace-only content falls back to the sentinel. -/
def sentinel : List Char := "(sin respuesta)".toList

/-- See `sentinel`: the value bound to `rawReply` in `sendMessage`. -/
def rawReplyOf : Option (List Char) → List Char
  | none => sentinel
  | some c => if (trimWs c).isEmpty then sentinel else trimWs c

/-- The full reply path of `sendMessage` (`useGroqAI.ts:156-157`). -/
def pipelineReply (content : Option (List Char)) : List Char :=
  makeConciseReply (rawReplyOf content)

/-- Models `text.replace(/&/g, '&amp;')` (`QuimiBot.tsx:39`). -/
def escAmp : List Char → List Char
  | [] => []
  | c :: rest => if c = '&' then "&amp;".toList ++ escAmp rest else c :: escAmp rest

/-- Models `.replace(/</g, '&lt;')` (`QuimiBot.tsx:39`). -/
def escLt : List Char → List Char
  | [] => []
  | c :: rest => if c = '<' then "&lt;".toList ++ escLt rest else c :: escLt rest

/-- Models `.replace(/>/g, '&gt;')` (`QuimiBot.tsx:39`). -/
def escGt : List Char → List Char
  | [] => []
  | c :: rest => if c = '>' then "&gt;".toList ++ escGt rest else c :: escGt rest

/-- Step 1 of `formatBotText` (`QuimiBot.tsx:38-39`): the three chained
global escapes, in source order. -/
def escapeHtml (t : List Char) : List Char := escGt (escLt (escAmp t))

/-- Every `&` in the text is the head of one of the three entities the
escaping step emits (`&amp;`, `&lt;`, `&gt;`). -/
def ampOk : List Char → Bool
  | [] => true
  | c :: rest =>
    (c ≠ '&' || "amp;".toList.isPrefixOf rest || "lt;".toList.isPrefixOf rest ||
      "gt;".toList.isPrefixOf rest) && ampOk rest

/-- The renderer's partial-row removal (`QuimiBot.tsx:42`):
`out.replace(/\n\|[^\n|]*$/m, '')`. With the `m` flag, `$` matches at
every line end, so the match is the first line after a newline that
starts with `|` and contains no further `|`; that line and its leading
newline are deleted. This helper scans the lines after the first. -/
def rendererFixTail : List (List Char) → List (List Char)
  | [] => []
  | l :: rest =>
    if l.head? = some '|' && !(l.drop 1).contains '|' then rest
    else l :: rendererFixTail rest

/-- Step 2 of `formatBotText`: the replacement above on the whole text. -/
def dropPartialRow (t : List Char) : List Char :=
  match splitNl t with
  | [] => t
  | l :: rest => joinNl (l :: rendererFixTail rest)

/-- Concatenate pieces (JavaScript `array.join('')`). -/
def concatAll : List (List Char) → List Char
  | [] => []
  | x :: rest => x ++ concatAll rest

/-- The cell splitter of `renderMarkdownTable` (`QuimiBot.tsx:29-30`):
`row.split('|').map(c => c.trim()).filter((_, i, a) => i > 0 && i < a.length - 1)`.
Splitting on `|` is the same recursion as `splitNl` with another
separator. -/
def splitPipe : List Char → List (List Char)
  | [] => [[]]
  | c :: rest =>
    if c = '|' then [] :: splitPipe rest
    else
      match splitPipe rest with
      | [] => [[c]]
      | p :: ps => (c :: p) :: ps

/-- See `splitPipe`: trim each part, keep only the inner indices. -/
def cellsOf (row : List Char) : List (List Char) :=
  (((splitPipe row).map trimWs).drop 1).dropLast

/-- Source function `renderMarkdownTable` (`QuimiBot.tsx:22-34`): keep the complete rows
(start and end with `|`), require at least two, use the first as header,
discard the second (the markdown separator row), render the rest as body
rows. -/
def renderMarkdownTable (block : List Char) : List Char :=
  let rows := ((splitNl (trimWs block)).map trimWs).filter
    (fun r => r.head? = some '|' && r.getLast? = some '|')
  if rows.length < 2 then block
  else
    match rows with
    | header :: _ :: body =>
      let th := concatAll ((cellsOf header).map
        (fun c => "<th>".toList ++ c ++ "</th>".toList))
      let trs := concatAll (body.map (fun r =>
        "<tr>".toList ++ concatAll ((cellsOf r).map
          (fun c => "<td>".toList ++ c ++ "</td>".toList)) ++ "</tr>".toList))
      "<table class=\"qb-table\"><thead><tr>".toList ++ th ++
        "</tr></thead><tbody>".toList ++ trs ++ "</tbody></table>".toList
    | _ => block

/-- How much of a single line the table-block regex unit `^\|.+\|\n?`
(`QuimiBot.tsx:45`) consumes: the line must start with `|` and its last
pipe must sit at index at least 2 (the greedy `.+` backtracks to the last
pipe; a smaller index leaves the `.+` empty). Returns the consumed part
(up to that pipe, inclusive) and the leftover tail of the line. -/
def lineRowSpan (l : List Char) : Option (List Char × List Char) :=
  if l.head? = some '|' then
    match lastIdx? (fun c => c = '|') l with
    | some j => if 2 ≤ j then some (l.take (j + 1), l.drop (j + 1)) else none
    | none => none
  else none

/-- Collect one maximal run of the unit above over successive lines,
starting at a line known to match. Returns the matched text (newlines
between fully consumed lines included, as `\n?` eats them), the mid-line
leftover of the last line (empty when the unit reached the line end), and
the remaining lines. Fuel bounds the recursion; callers pass more fuel
than there are lines. -/
def tableRunGo : Nat → List (List Char) → (List Char × List Char × List (List Char))
  | 0, ls => ([], [], ls)
  | _ + 1, [] => ([], [], [])
  | fuel + 1, l :: rest =>
    match lineRowSpan l with
    | none => ([], [], l :: rest)
    | some (c, leftover) =>
      if leftover.isEmpty then
        match rest with
        | [] => (c, [], [])
        | _ =>
          let r := tableRunGo fuel rest
          (c ++ '\n' :: r.1, r.2.1, r.2.2)
      else (c, leftover, rest)

/-- Step 3 of `formatBotText` (`QuimiBot.tsx:45`):
`out.replace(/((?:^\|.+\|\n?)+)/gm, m => renderMarkdownTable(m))`. The
scan walks line by line; wherever a line starts a unit, the maximal run is
matched and handed to `renderMarkdownTable`, and scanning resumes after
the match (mid-line leftovers cannot start a new match because `^` only
fires at line starts). -/
def tableConvertGo : Nat → List (List Char) → List Char
  | 0, ls => joinNl ls
  | _ + 1, [] => []
  | fuel + 1, l :: rest =>
    match lineRowSpan l with
    | none =>
      match rest with
      | [] => l
      | _ => l ++ '\n' :: tableConvertGo fuel rest
    | some _ =>
      let r := tableRunGo (fuel + 1) (l :: rest)
      let rendered := renderMarkdownTable r.1
      match r.2.2 with
      | [] => rendered ++ r.2.1
      | _ =>
        if r.2.1.isEmpty then rendered ++ tableConvertGo fuel r.2.2
        else rendered ++ r.2.1 ++ '\n' :: tableConvertGo fuel r.2.2

/-- See `tableConvertGo`. -/
def tableConvert (t : List Char) : List Char :=
  tableConvertGo ((splitNl t).length + 1) (splitNl t)

/-- Minimal non-newline span up to the next `**`, for the lazy `.+?` of
the bold regex `/\*\*(.+?)\*\*/g` (`QuimiBot.tsx:48`). -/
def findStars2 : List Char → Option (List Char × List Char)
  | '*' :: '*' :: rest => some ([], rest)
  | c :: rest =>
    if c = '\n' then none
    else (findStars2 rest).map (fun pr => (c :: pr.1, pr.2))
  | [] => none

/-- Step 4a of `formatBotText`: the bold replacement. At `**`, the lazy
group takes at least one non-newline character and stops at the next
`**`; on failure the scan moves one character forward. -/
def boldScan : Nat → List Char → List Char
  | 0, t => t
  | _ + 1, [] => []
  | fuel + 1, '*' :: '*' :: rest =>
    match rest with
    | c :: r2 =>
      if c = '\n' then '*' :: boldScan fuel ('*' :: rest)
      else
        match findStars2 r2 with
        | some (inner, after) =>
          "<strong>".toList ++ (c :: inner) ++ "</strong>".toList ++ boldScan fuel after
        | none => '*' :: boldScan fuel ('*' :: rest)
    | [] => '*' :: boldScan fuel ('*' :: rest)
  | fuel + 1, c :: rest => c :: boldScan fuel rest

/-- Minimal non-newline span up to the next `*`, for the italic regex
`/\*(.+?)\*/g` (`QuimiBot.tsx:49`). -/
def findStar1 : List Char → Option (List Char × List Char)
  | '*' :: rest => some ([], rest)
  | c :: rest =>
    if c = '\n' then none
    else (findStar1 rest).map (fun pr => (c :: pr.1, pr.2))
  | [] => none

/-- Step 4b of `formatBotText`: the italic replacement. -/
def italicScan : Nat → List Char → List Char
  | 0, t => t
  | _ + 1, [] => []
  | fuel + 1, '*' :: rest =>
    match rest with
    | c :: r2 =>
      if c = '\n' then '*' :: italicScan fuel rest
      else
        match findStar1 r2 with
        | some (inner, after) =>
          "<em>".toList ++ (c :: inner) ++ "</em>".toList ++ italicScan fuel after
        | none => '*' :: italicScan fuel rest
    | [] => ['*']
  | fuel + 1, c :: rest => c :: italicScan fuel rest

/-- Span up to the next backtick for `/`([^`]+)`/g` (`QuimiBot.tsx:50`);
the class `[^`]` admits newlines, and the greedy plus stops exactly at
the next backtick. -/
def findTick : List Char → Option (List Char × List Char)
  | '`' :: rest => some ([], rest)
  | c :: rest => (findTick rest).map (fun pr => (c :: pr.1, pr.2))
  | [] => none

/-- Step 4c of `formatBotText`: the inline-code replacement. -/
def codeScan : Nat → List Char → List Char
  | 0, t => t
  | _ + 1, [] => []
  | fuel + 1, '`' :: rest =>
    match rest with
    | c :: r2 =>
      if c = '`' then '`' :: codeScan fuel rest
      else
        match findTick r2 with
        | some (inner, after) =>
          "<code>".toList ++ (c :: inner) ++ "</code>".toList ++ codeScan fuel after
        | none => '`' :: codeScan fuel rest
    | [] => ['`']
  | fuel + 1, c :: rest => c :: codeScan fuel rest

/-- Match the regex fragment `\s+(.+)$` (with the `m` flag) at the front
of `t`, as used by the heading and list-item rules: a non-empty greedy
whitespace run (which may cross newlines), then a non-empty greedy
non-newline capture ending at a line end. When everything after the run
is empty, the greedy `\s+` backtracks just far enough to leave trailing
non-newline whitespace for the capture. Returns the capture and the rest
of the text after the match. -/
def wsContentSplit (t : List Char) : Option (List Char × List Char) :=
  let w := t.takeWhile isWs
  let b := t.drop w.length
  if w.isEmpty then none
  else if !b.isEmpty then
    some (b.takeWhile (fun c => c ≠ '\n'), b.dropWhile (fun c => c ≠ '\n'))
  else
    match lastIdx? (fun c => c ≠ '\n') (w.drop 1) with
    | none => none
    | some j =>
      some ((w.drop (j + 1)).takeWhile (fun c => c ≠ '\n'),
        (w.drop (j + 1)).dropWhile (fun c => c ≠ '\n'))

/-- Step 5 of `formatBotText` (`QuimiBot.tsx:51`): the heading rule
`/^#{1,3}\s+(.+)$/gm`. At a line start, one to three `#` characters (four
or more never match, as backtracking always lands on a `#` where
whitespace is required) followed by `\s+(.+)$`. -/
def headScan : Nat → Bool → List Char → List Char
  | 0, _, t => t
  | _ + 1, _, [] => []
  | fuel + 1, atStart, c :: rest =>
    if atStart && c = '#' then
      let hashes := (c :: rest).takeWhile (fun x => x = '#')
      if hashes.length ≤ 3 then
        match wsContentSplit ((c :: rest).drop hashes.length) with
        | some (g, after) =>
          "<strong style=\"font-size:1.05em\">".toList ++ g ++ "</strong>".toList ++
            headScan fuel false after
        | none => c :: headScan fuel false rest
      else c :: headScan fuel false rest
    else c :: headScan fuel (c = '\n') rest

/-- Step 6a of `formatBotText` (`QuimiBot.tsx:52`): the list-item rule
`/^[-•]\s+(.+)$/gm`. -/
def listScan : Nat → Bool → List Char → List Char
  | 0, _, t => t
  | _ + 1, _, [] => []
  | fuel + 1, atStart, c :: rest =>
    if atStart && (c = '-' || c = '•') then
      match wsContentSplit rest with
      | some (g, after) =>
        "<li>".toList ++ g ++ "</li>".toList ++ listScan fuel false after
      | none => c :: listScan fuel false rest
    else c :: listScan fuel (c = '\n') rest

/-- Span up to the closing `</li>` literal for the lazy `.*?` of
`/(<li>.*?<\/li>\n?)+/g` (`QuimiBot.tsx:53`): a possibly empty
non-newline span, stopping at the first `</li>`. -/
def findCloseLi : List Char → Option (List Char × List Char)
  | '<' :: '/' :: 'l' :: 'i' :: '>' :: rest => some ([], rest)
  | c :: rest =>
    if c = '\n' then none
    else (findCloseLi rest).map (fun pr => (c :: pr.1, pr.2))
  | [] => none

/-- One unit `<li>.*?<\/li>\n?` matched at the front of `t`: returns the
consumed text (optional newline included) and the rest. -/
def liUnit (t : List Char) : Option (List Char × List Char) :=
  if "<li>".toList.isPrefixOf t then
    match findCloseLi (t.drop 4) with
    | some (inner, after) =>
      let core := "<li>".toList ++ inner ++ "</li>".toList
      match after with
      | '\n' :: a2 => some (core ++ ['\n'], a2)
      | _ => some (core, after)
    | none => none
  else none

/-- Greedy repetition of `liUnit`, concatenating the consumed text. -/
def liRun : Nat → List Char → (List Char × List Char)
  | 0, t => ([], t)
  | fuel + 1, t =>
    match liUnit t with
    | some (m, r) =>
      let tail := liRun fuel r
      (m ++ tail.1, tail.2)
    | none => ([], t)

/-- Step 6b of `formatBotText`: wrap each maximal run of `<li>` items in
`<ul>…</ul>`. -/
def ulScan : Nat → List Char → List Char
  | 0, t => t
  | _ + 1, [] => []
  | fuel + 1, t@(c :: rest) =>
    match liUnit t with
    | some _ =>
      let r := liRun (fuel + 1) t
      "<ul>".toList ++ r.1 ++ "</ul>".toList ++ ulScan fuel r.2
    | none => c :: ulScan fuel rest

/-- Step 7a of `formatBotText` (`QuimiBot.tsx:54`): `/\n{2,}/g` becomes
`</p><p>`. -/
def paraScan : Nat → List Char → List Char
  | 0, t => t
  | _ + 1, [] => []
  | fuel + 1, '\n' :: '\n' :: rest =>
    "</p><p>".toList ++ paraScan fuel (rest.dropWhile (fun c => c = '\n'))
  | fuel + 1, c :: rest => c :: paraScan fuel rest

/-- Step 7b of `formatBotText` (`QuimiBot.tsx:55`): remaining newlines
become `<br/>`. -/
def brStep : List Char → List Char
  | [] => []
  | c :: rest => if c = '\n' then "<br/>".toList ++ brStep rest else c :: brStep rest

/-- Step 8 of `formatBotText` (`QuimiBot.tsx:56`): `/^(.+)$/` without the
`m` flag wraps the whole text in a paragraph exactly when it is non-empty
and contains no newline (`.` cannot cross a newline and `$` only matches
at the very end). -/
def pWrap (t : List Char) : List Char :=
  if t.isEmpty || t.contains '\n' then t
  else "<p>".toList ++ t ++ "</p>".toList

/-- Source function `formatBotText` (`QuimiBot.tsx:36-57`): the full renderer pipeline in
source order. -/
def formatBotText (t : List Char) : List Char :=
  let e := tableConvert (dropPartialRow (escapeHtml t))
  let s1 := boldScan (e.length + 1) e
  let s2 := italicScan (s1.length + 1) s1
  let s3 := codeScan (s2.length + 1) s2
  let s4 := headScan (s3.length + 1) true s3
  let s5 := listScan (s4.length + 1) true s4
  let s6 := ulScan (s5.length + 1) s5
  let s7 := paraScan (s6.length + 1) s6
  pWrap (brStep s7)

/-- Count the occurrences of `pat` starting at each position of the
text. -/
def countSub (pat : List Char) : List Char → Nat
  | [] => 0
  | c :: rest => (if pat.isPrefixOf (c :: rest) then 1 else 0) + countSub pat rest

/-- Boolean form of "the first character, if any, is not whitespace". -/
def headOkB (l : List Char) : Bool :=
  match l.head? with
  | some c => !isWs c
  | none => true

/-- Boolean form of "the last character, if any, is not whitespace". -/
def lastOkB (l : List Char) : Bool := headOkB l.reverse

/-- Adjacency constraint satisfied by a text whose lines are all
non-empty and trimmed: a newline is never next to whitespace. -/
def lineStep (a b : Char) : Prop :=
  (a = '\n' → isWs b = false) ∧ (isWs a = true → b ≠ '\n')

/-- The sentence-ending punctuation set of the truncation heuristic,
associated the way the source nests its `Math.max` calls. -/
def isSentencePunct (c : Char) : Bool :=
  (((c = '.' || c = '!') || c = '?') || c = ';') || c = ':'

/-- Spec-side description of the whitespace fallback of the truncation
rule: cut at the last space character when it sits at a positive index
(connector-trimmed, ellipsis appended); otherwise keep the whole chunk,
connector-trimmed, and append the ellipsis. -/
def spaceCutSpec (chunk : List Char) : List Char :=
  match lastIdx? (fun c => c = ' ') chunk with
  | some j =>
    if 0 < j then trimDanglingConnector (chunk.take j) ++ ['…']
    else trimDanglingConnector chunk ++ ['…']
  | none => trimDanglingConnector chunk ++ ['…']

/-- Spec-side description of the overflow truncation rule, following the
amended wording of the C4 claim: if the greatest sentence-punctuation
index of the chunk reaches `286` (55 percent of the 520 ceiling, floored),
cut there inclusive and trim a dangling connector; otherwise apply the
whitespace fallback. -/
def sentenceCutSpec (chunk : List Char) : List Char :=
  match lastIdx? isSentencePunct chunk with
  | some i =>
    if 286 ≤ i then trimDanglingConnector (chunk.take (i + 1))
    else spaceCutSpec chunk
  | none => spaceCutSpec chunk

/-- Maximum of two optional indices, absent values lowest. -/
def omax : Option Nat → Option Nat → Option Nat
  | none, b => b
  | some i, none => some i
  | some i, some j => some (max i j)

/-- Failing input for C3: two complete table rows followed by a trailing
incomplete one. -/
def c3input : List Char := "|h|\n|a|\n|x".toList

/-- Failing input for C7: a middle pipe-line and a trailing incomplete
row. -/
def c7input : List Char := "x\n|b\n|c".toList

/-- The literal three-row markdown table of C8. -/
def c8input : List Char := "| A | B |\n|---|---|\n| 1 | 2 |".toList

/-- The renderer output expected for `c8input`. -/
def c8expected : List Char :=
  ("<p><table class=\"qb-table\"><thead><tr><th>A</th><th>B</th></tr></thead>" ++
    "<tbody><tr><td>1</td><td>2</td></tr></tbody></table></p>").toList

/-- Counterexample input for C4: 534 characters, no sentence punctuation,
whose last space is preceded by the connector `de`. -/
def c4cx : List Char := List.replicate 500 'a' ++ " de ".toList ++ List.replicate 30 'b'

/-- Counterexample input for C5: 700 characters of prose whose only
period sits at index 600. -/
def c5cx : List Char := List.replicate 600 'a' ++ '.' :: List.replicate 99 'a'

/-- Input for the amended C5: 700 characters whose last period within the
first 520 characters sits exactly at the 55-percent floor, index 286. -/
def c5hi : List Char := List.replicate 286 'a' ++ '.' :: List.replicate 413 'a'

/-- Input for the amended C5: the period just below the floor, index 285. -/
def c5lo : List Char := List.replicate 285 'a' ++ '.' :: List.replicate 414 'a'

/-- An input whose shaping produces `c9cx`, showing `c9cx` is itself an
already-shaped reply. -/
def c9s0 : List Char := "x de de de".toList

/-- Counterexample input for C9: an already-shaped reply that still ends
with a whitespace-preceded connector word. -/
def c9cx : List Char := "x de de".toList

example : stripFillers "¡Buena pregunta! El oro es denso.".toList
    = "El oro es denso.".toList := by decide
example : trimDanglingConnector "el peso de".toList = "el peso".toList := by decide
example : trimDanglingConnector "grande".toList = "grande".toList := by decide
example : hasTable "x\n|a|b|".toList = true := by decide
example : hasTable "x\n|ab".toList = false := by decide
example : makeConciseReply "  hola \n\n mundo ".toList = "hola\nmundo".toList := by decide

/-- C6: the empty (or missing, or whitespace-only) raw reply is replaced
by the sentinel placeholder `(sin respuesta)` before shaping
(`useGroqAI.ts:156`), the shaper maps the sentinel to itself, and the
result is not the empty string. Every input of the pipeline produces a
defined output, as all the modelled functions are total. -/
theorem c6_empty_reply_sentinel :
    rawReplyOf (some []) = sentinel ∧
    rawReplyOf none = sentinel ∧
    rawReplyOf (some "   ".toList) = sentinel ∧
    pipelineReply (some []) = sentinel ∧
    sentinel ≠ [] := by decide

/-- C3: evaluation at the failing input `"|h|\n|a|\n|x"` (table mode,
length within 2400, two complete rows, trailing incomplete row). The
shaper returns the input unchanged, so the output still ends with the
incomplete row `|x`, which the claim says is removed; the claimed output
`"|h|\n|a|"` is not produced. -/
theorem c3_trailing_row_kept_eval :
    makeConciseReply c3input = c3input ∧
    (splitNl (makeConciseReply c3input)).getLast? = some ['|', 'x'] ∧
    makeConciseReply c3input ≠ "|h|\n|a|".toList := by decide

/-- C7: evaluation at the failing input `"x\n|b\n|c"`. The renderer's
removal step deletes the middle line `|b` and keeps the trailing
incomplete row `|c`, while the claim says only a trailing incomplete row
may be removed (which would give `"x\n|b"`). -/
theorem c7_middle_row_removed_eval :
    dropPartialRow (escapeHtml c7input) = "x\n|c".toList ∧
    dropPartialRow (escapeHtml c7input) ≠ c7input ∧
    dropPartialRow (escapeHtml c7input) ≠ "x\n|b".toList := by decide

/-- C8: the literal three-row two-column markdown table renders to
exactly one table element whose header row has exactly two header cells
and whose single body row has exactly two data cells; the separator row
is gone and every cell is trimmed of the spaces around it. -/
theorem c8_table_round_trip :
    formatBotText c8input = c8expected ∧
    countSub "<table".toList (formatBotText c8input) = 1 ∧
    countSub "</table>".toList (formatBotText c8input) = 1 ∧
    countSub "<thead".toList (formatBotText c8input) = 1 ∧
    countSub "<tbody".toList (formatBotText c8input) = 1 ∧
    countSub "<tr>".toList (formatBotText c8input) = 2 ∧
    countSub "<th>".toList (formatBotText c8input) = 2 ∧
    countSub "<td>".toList (formatBotText c8input) = 2 := by decide

/-- C5: counterexample. For the 700-character prose input whose only
period sits at index 600, the claim predicts a cut at character 601
(inclusive of the period); the code first truncates to 520 characters, so
the period is outside the chunk and the output is the 520-character chunk
with the ellipsis marker, not the claimed 601-character cut. -/
theorem c5_counterexample :
    makeConciseReply c5cx = List.replicate 520 'a' ++ ['…'] ∧
    makeConciseReply c5cx ≠ c5cx.take 601 := by decide

/-- C5 (amended): the 55-percent rule applies to the last sentence mark
inside the first 520 characters. With the last period at index 286
(exactly the floor of 0.55 times 520) the shaper cuts there inclusive;
with it at index 285 (just below) it falls back, and as the chunk has no
space the whole chunk is kept with the ellipsis appended. A period at
character 600 lies outside the truncated chunk and can never be the cut
point. -/
theorem c5_amended_threshold :
    makeConciseReply c5hi = List.replicate 286 'a' ++ ['.'] ∧
    makeConciseReply c5lo = (List.replicate 285 'a' ++ '.' :: List.replicate 234 'a') ++ ['…'] := by decide

/-- C4: counterexample. At `c4cx` the truncation takes the whitespace
branch; the claim says that branch yields the chunk cut at the last
whitespace boundary with the marker appended (here `…aaa de` plus the
marker), but the code also trims the dangling connector `de` in this
branch, yielding `…aaa` plus the marker. -/
theorem c4_counterexample :
    makeConciseReply c4cx = List.replicate 500 'a' ++ ['…'] ∧
    makeConciseReply c4cx ≠ (List.replicate 500 'a' ++ " de".toList) ++ ['…'] := by decide

/-- C9: counterexample. `c9cx` is an already-shaped reply (it is the
shaper's own output on `c9s0`), has no filler prefix, is trimmed, is in
line mode, and is within the six-line and 520-character bounds; yet
shaping it twice gives `x` while shaping it once gives `x de`, because
the connector strip removes only one trailing connector per pass. -/
theorem c9_counterexample :
    makeConciseReply c9s0 = c9cx ∧
    stripFiller1 c9cx = c9cx ∧
    stripFiller2 c9cx = c9cx ∧
    trimWs c9cx = c9cx ∧
    hasTable c9cx = false ∧
    (splitNl c9cx).length ≤ 6 ∧
    c9cx.length ≤ 520 ∧
    makeConciseReply c9cx = "x de".toList ∧
    makeConciseReply (makeConciseReply c9cx) = "x".toList ∧
    makeConciseReply (makeConciseReply c9cx) ≠ makeConciseReply c9cx := by decide

theorem splitNl_ne_nil (t : List Char) : splitNl t ≠ [] := by
  cases t with
  | nil => simp [splitNl]
  | cons c r =>
    simp only [splitNl]
    split
    · simp
    · cases h : splitNl r <;> simp

theorem joinNl_cons (l : List Char) (ls : List (List Char)) :
    joinNl (l :: ls) = l ++ (if ls.isEmpty then [] else '\n' :: joinNl ls) := by
  cases ls <;> simp [joinNl]

theorem joinNl_splitNl (t : List Char) : joinNl (splitNl t) = t := by
  induction t with
  | nil => simp [splitNl, joinNl]
  | cons c r ih =>
    simp only [splitNl]
    by_cases hc : c = '\n'
    · subst hc
      simp only [if_pos rfl]
      cases h : splitNl r with
      | nil => exact absurd h (splitNl_ne_nil r)
      | cons p ps =>
        rw [h] at ih
        simpa [joinNl] using ih
    · simp only [if_neg hc]
      cases h : splitNl r with
      | nil => exact absurd h (splitNl_ne_nil r)
      | cons p ps =>
        rw [h] at ih
        cases ps with
        | nil => simpa [joinNl] using congrArg (c :: ·) ih
        | cons q qs =>
          rw [joinNl_cons] at ih ⊢
          simp only [List.isEmpty_cons] at ih ⊢
          rw [List.cons_append]
          exact congrArg (c :: ·) ih

theorem splitNl_no_nl (t : List Char) : ∀ l ∈ splitNl t, '\n' ∉ l := by
  induction t with
  | nil => simp [splitNl]
  | cons c r ih =>
    intro l hl
    simp only [splitNl] at hl
    by_cases hc : c = '\n'
    · rw [if_pos hc] at hl
      rcases List.mem_cons.mp hl with h | h
      · simp [h]
      · exact ih l h
    · rw [if_neg hc] at hl
      cases h : splitNl r with
      | nil => exact absurd h (splitNl_ne_nil r)
      | cons p ps =>
        rw [h] at hl
        rcases List.mem_cons.mp hl with h2 | h2
        · subst h2
          intro hmem
          rcases List.mem_cons.mp hmem with h3 | h3
          · exact hc h3.symm
          · exact ih p (by rw [h]; exact List.mem_cons_self p ps) h3
        · exact ih l (by rw [h]; exact List.mem_cons_of_mem p h2)

theorem dropWhile_eq_self_of_headOk (l : List Char) (h : headOkB l = true) :
    l.dropWhile isWs = l := by
  cases l with
  | nil => rfl
  | cons c r =>
    simp only [headOkB, List.head?_cons, Bool.not_eq_true'] at h
    simp [List.dropWhile_cons, h]

theorem headOkB_dropWhile (l : List Char) : headOkB (l.dropWhile isWs) = true := by
  induction l with
  | nil => rfl
  | cons c r ih =>
    rw [List.dropWhile_cons]
    by_cases h : isWs c
    · simpa [h] using ih
    · have h' : isWs c = false := eq_false_of_ne_true h
      simp [h', headOkB]

theorem dtw_append (l : List Char) : ∃ r, l = dropTrailingWs l ++ r := by
  refine ⟨(l.reverse.takeWhile isWs).reverse, ?_⟩
  have h := List.takeWhile_append_dropWhile isWs l.reverse
  have h2 := congrArg List.reverse h
  rw [List.reverse_append, List.reverse_reverse] at h2
  exact h2.symm

theorem dlw_suffix (l : List Char) : l = l.takeWhile isWs ++ dropLeadingWs l :=
  (List.takeWhile_append_dropWhile isWs l).symm

theorem lastOkB_dtw (l : List Char) : lastOkB (dropTrailingWs l) = true := by
  unfold lastOkB dropTrailingWs
  rw [List.reverse_reverse]
  exact headOkB_dropWhile l.reverse

theorem headOkB_of_pre (p q r : List Char) (hq : q = p ++ r)
    (h : headOkB q = true) : headOkB p = true := by
  cases p with
  | nil => rfl
  | cons c p' =>
    subst hq
    simpa [headOkB] using h

theorem lastOkB_of_suf (s q p : List Char) (hq : q = p ++ s) (hs : s ≠ [])
    (h : lastOkB q = true) : lastOkB s = true := by
  subst hq
  unfold lastOkB headOkB at h ⊢
  rw [List.reverse_append, List.head?_append] at h
  cases hrev : s.reverse.head? with
  | none =>
    exact absurd (List.head?_eq_none_iff.mp hrev) (by simpa using hs)
  | some c =>
    simp only [hrev] at h ⊢
    simpa [Option.or] using h

theorem trimWs_headOk (l : List Char) : headOkB (trimWs l) = true :=
  headOkB_dropWhile (dropTrailingWs l)

theorem trimWs_lastOk (l : List Char) : lastOkB (trimWs l) = true := by
  unfold trimWs dropLeadingWs
  by_cases hnil : (dropTrailingWs l).dropWhile isWs = []
  · rw [hnil]; rfl
  · refine lastOkB_of_suf _ (dropTrailingWs l) ((dropTrailingWs l).takeWhile isWs)
      (dlw_suffix (dropTrailingWs l)) hnil (lastOkB_dtw l)

theorem trimWs_eq_self (l : List Char) (h1 : headOkB l = true)
    (h2 : lastOkB l = true) : trimWs l = l := by
  unfold trimWs dropTrailingWs dropLeadingWs
  rw [dropWhile_eq_self_of_headOk l.reverse h2, List.reverse_reverse,
    dropWhile_eq_self_of_headOk l h1]

theorem trimWs_idem (l : List Char) : trimWs (trimWs l) = trimWs l :=
  trimWs_eq_self (trimWs l) (trimWs_headOk l) (trimWs_lastOk l)

theorem trimWs_sublist (l : List Char) : (trimWs l).Sublist l := by
  have h1 : (dropTrailingWs l).Sublist l := by
    have := (List.dropWhile_sublist (l := l.reverse) isWs).reverse
    rwa [List.reverse_reverse] at this
  exact (List.dropWhile_sublist isWs).trans h1

theorem trimWs_pre (l : List Char) (h : headOkB l = true) :
    ∃ r, l = trimWs l ++ r := by
  obtain ⟨r1, hr1⟩ := dtw_append l
  by_cases hnil : dropTrailingWs l = []
  · exact ⟨l, by simp [trimWs, hnil, dropLeadingWs]⟩
  · have hhead : headOkB (dropTrailingWs l) = true := headOkB_of_pre _ l r1 hr1 h
    have : trimWs l = dropTrailingWs l := by
      unfold trimWs dropLeadingWs
      exact dropWhile_eq_self_of_headOk _ hhead
    rw [this]
    exact ⟨r1, hr1⟩

theorem tdc_take (t : List Char) : ∃ n, trimDanglingConnector t = trimWs (t.take n) := by
  unfold trimDanglingConnector
  cases connectors.find? (fun c => hasConnSuffix c t) with
  | none => exact ⟨t.length, by rw [List.take_length]⟩
  | some c => exact ⟨t.length - c.length, rfl⟩

theorem tdc_pre (t q : List Char) (hpre : ∃ r, q = t ++ r) (hq : headOkB q = true) :
    ∃ r2, q = trimDanglingConnector t ++ r2 ∧
      trimWs (trimDanglingConnector t) = trimDanglingConnector t ∧
      (trimDanglingConnector t).length ≤ t.length := by
  obtain ⟨r, hr⟩ := hpre
  obtain ⟨n, hn⟩ := tdc_take t
  have hpre2 : q = t.take n ++ (t.drop n ++ r) := by
    rw [← List.append_assoc, List.take_append_drop, hr]
  have hhead : headOkB (t.take n) = true := headOkB_of_pre _ q _ hpre2 hq
  obtain ⟨r3, hr3⟩ := trimWs_pre (t.take n) hhead
  refine ⟨r3 ++ (t.drop n ++ r), ?_, ?_, ?_⟩
  · rw [hn, ← List.append_assoc, ← hr3, ← hpre2]
  · rw [hn]; exact trimWs_idem (t.take n)
  · rw [hn]
    have h1 : (trimWs (t.take n)).length ≤ (t.take n).length :=
      (trimWs_sublist (t.take n)).length_le
    have h2 : (t.take n).length ≤ t.length := by
      rw [List.length_take]; exact min_le_right n t.length
    exact h1.trans h2

theorem cleanLines_props (s : List Char) :
    ∀ l ∈ cleanLines s, l ≠ [] ∧ trimWs l = l ∧ '\n' ∉ l := by
  intro l hl
  unfold cleanLines at hl
  have hl2 := List.mem_of_mem_take hl
  have hl3 := List.mem_filter.mp hl2
  obtain ⟨x, hx, hxl⟩ := List.mem_map.mp hl3.1
  refine ⟨by simpa using hl3.2, ?_, ?_⟩
  · rw [← hxl]; exact trimWs_idem x
  · intro hmem
    exact splitNl_no_nl (stripFillers s) x hx
      ((trimWs_sublist x).mem (by rwa [hxl]))

theorem cleanLines_len (s : List Char) : (cleanLines s).length ≤ 6 := by
  unfold cleanLines
  exact List.length_take_le 6 _

theorem compact_headOk (s : List Char) : headOkB (compactOf s) = true := by
  unfold compactOf
  cases h : cleanLines s with
  | nil => rfl
  | cons l ls =>
    have hprops := cleanLines_props s l (by rw [h]; exact List.mem_cons_self l ls)
    rw [joinNl_cons]
    have : headOkB l = true := by
      rw [← hprops.2.1]; exact trimWs_headOk l
    cases hl : l with
    | nil => exact absurd hl hprops.1
    | cons c l' =>
      rw [hl] at this
      simpa [headOkB] using this

theorem countNl_joinNl (ls : List (List Char)) (h : ∀ l ∈ ls, '\n' ∉ l) :
    List.count '\n' (joinNl ls) ≤ ls.length - 1 := by
  induction ls with
  | nil => simp [joinNl]
  | cons l ls ih =>
    cases ls with
    | nil =>
      simp only [joinNl, List.length_cons, List.length_nil]
      rw [List.count_eq_zero.mpr (h l (List.mem_cons_self l []))]
    | cons m ms =>
      rw [joinNl_cons]
      simp only [List.isEmpty_cons, Bool.false_eq_true, if_false]
      rw [List.count_append, List.count_cons]
      have h1 : List.count '\n' l = 0 :=
        List.count_eq_zero.mpr (h l (List.mem_cons_self l (m :: ms)))
      have h2 : List.count '\n' (joinNl (m :: ms)) ≤ (m :: ms).length - 1 :=
        ih (fun x hx => h x (List.mem_cons_of_mem l hx))
      have h3 : (if ('\n' == '\n') = true then 1 else 0) = 1 := by simp
      simp only [h1, h3, List.length_cons] at *
      omega

theorem countNl_compact (s : List Char) : List.count '\n' (compactOf s) ≤ 5 := by
  have h := countNl_joinNl (cleanLines s) (fun l hl => (cleanLines_props s l hl).2.2)
  have h2 := cleanLines_len s
  unfold compactOf
  omega

theorem headOkB_spec (l : List Char) (x : Char) (h : headOkB l = true)
    (hx : l.head? = some x) : isWs x = false := by
  unfold headOkB at h
  rw [hx] at h
  simpa using h

theorem headOkB_build (l : List Char)
    (h : ∀ y, l.head? = some y → isWs y = false) : headOkB l = true := by
  unfold headOkB
  cases hh : l.head? with
  | none => rfl
  | some y => simpa using h y hh

theorem lastOkB_spec (l : List Char) (x : Char) (h : lastOkB l = true)
    (hx : l.getLast? = some x) : isWs x = false := by
  unfold lastOkB headOkB at h
  rw [List.head?_reverse, hx] at h
  simpa using h

theorem lastOkB_build (l : List Char)
    (h : ∀ y, l.getLast? = some y → isWs y = false) : lastOkB l = true := by
  unfold lastOkB
  refine headOkB_build _ (fun y hy => h y ?_)
  rwa [List.head?_reverse] at hy

theorem chain_of_no_nl (l : List Char) (h : '\n' ∉ l) : List.Chain' lineStep l := by
  induction l with
  | nil => exact List.chain'_nil
  | cons c r ih =>
    refine List.chain'_cons'.mpr ⟨?_, ih (fun hm => h (List.mem_cons_of_mem c hm))⟩
    intro y hy
    have hyr : y ∈ r := List.mem_of_mem_head? hy
    constructor
    · intro hc
      exact absurd (hc ▸ List.mem_cons_self c r) h
    · intro _
      intro hy'
      exact h (hy' ▸ List.mem_cons_of_mem c hyr)

theorem chain_joinNl (ls : List (List Char))
    (h : ∀ l ∈ ls, l ≠ [] ∧ trimWs l = l ∧ '\n' ∉ l) :
    List.Chain' lineStep (joinNl ls) := by
  induction ls with
  | nil => exact List.chain'_nil
  | cons l ls ih =>
    cases ls with
    | nil => exact chain_of_no_nl l (h l (List.mem_cons_self l [])).2.2
    | cons m ms =>
      have hl := h l (List.mem_cons_self l (m :: ms))
      have hm := h m (List.mem_cons_of_mem l (List.mem_cons_self m ms))
      have hjoin : joinNl (l :: m :: ms) = l ++ '\n' :: joinNl (m :: ms) := by
        rw [joinNl_cons]; simp
      rw [hjoin]
      refine List.Chain'.append (chain_of_no_nl l hl.2.2) ?_ ?_
      · refine List.chain'_cons'.mpr ⟨?_, ih (fun x hx => h x (List.mem_cons_of_mem l hx))⟩
        intro y hy
        have hyhead : (joinNl (m :: ms)).head? = some y := by
          cases hh : (joinNl (m :: ms)).head? with
          | none => rw [hh] at hy; exact absurd hy (by simp)
          | some z => rw [hh] at hy; simp at hy; rw [hy]
        have hmhead : (joinNl (m :: ms)).head? = m.head? := by
          rw [joinNl_cons]
          cases hmm : m with
          | nil => exact absurd hmm hm.1
          | cons a b => simp
        have hws : isWs y = false := by
          refine headOkB_spec m y ?_ (by rw [← hmhead, hyhead])
          rw [← hm.2.1]
          exact trimWs_headOk m
        constructor
        · intro _; exact hws
        · intro _
          intro hy'
          rw [hy'] at hws
          simp [isWs] at hws
      · intro x hx y hy
        have hxlast : l.getLast? = some x := by
          cases hh : l.getLast? with
          | none => rw [hh] at hx; exact absurd hx (by simp)
          | some z => rw [hh] at hx; simp at hx; rw [hx]
        have hws : isWs x = false := by
          refine lastOkB_spec l x ?_ hxlast
          rw [← hl.2.1]
          exact trimWs_lastOk l
        have hy' : y = '\n' := by have := hy; simp at this; exact this.symm
        constructor
        · intro hx'
          rw [hx'] at hws
          simp [isWs] at hws
        · intro hws'
          rw [hws'] at hws
          simp at hws

theorem goodLines_of_chain (ls : List (List Char))
    (hnl : ∀ l ∈ ls, '\n' ∉ l)
    (hch : List.Chain' lineStep (joinNl ls))
    (hhead : headOkB (joinNl ls) = true)
    (hlast : lastOkB (joinNl ls) = true)
    (hne : joinNl ls ≠ []) :
    ∀ l ∈ ls, l ≠ [] ∧ trimWs l = l := by
  induction ls with
  | nil => simp
  | cons l ls ih =>
    cases ls with
    | nil =>
      intro x hx
      have hx' : x = l := by simpa using hx
      subst hx'
      have hj : joinNl [x] = x := rfl
      rw [hj] at hhead hlast hne
      exact ⟨hne, trimWs_eq_self x hhead hlast⟩
    | cons m ms =>
      have hjoin : joinNl (l :: m :: ms) = l ++ '\n' :: joinNl (m :: ms) := by
        rw [joinNl_cons]; simp
      rw [hjoin] at hch hhead hlast
      have hl_ne : l ≠ [] := by
        intro h0
        rw [h0] at hhead
        simp only [List.nil_append] at hhead
        have := headOkB_spec _ '\n' hhead rfl
        simp [isWs] at this
      have hl_head : headOkB l = true :=
        headOkB_of_pre l (l ++ '\n' :: joinNl (m :: ms)) _ rfl hhead
      obtain ⟨x, hxlast⟩ : ∃ x, l.getLast? = some x := by
        cases hl2 : l.getLast? with
        | none => exact absurd (List.getLast?_eq_none_iff.mp hl2) hl_ne
        | some x => exact ⟨x, rfl⟩
      have hbd := (List.chain'_append.mp hch).2.2
      have hstep : lineStep x '\n' := hbd x (by rw [hxlast]; rfl) '\n' rfl
      have hl_last : lastOkB l = true := by
        refine lastOkB_build l (fun y hy => ?_)
        rw [hxlast] at hy
        have hyx : y = x := by have := hy; simp at this; exact this.symm
        subst hyx
        by_cases hws : isWs y
        · exact absurd rfl (hstep.2 hws)
        · exact eq_false_of_ne_true hws
      have hlprops : l ≠ [] ∧ trimWs l = l :=
        ⟨hl_ne, trimWs_eq_self l hl_head hl_last⟩
      have hj_ne : joinNl (m :: ms) ≠ [] := by
        intro h0
        rw [h0] at hlast
        have hgl : (l ++ '\n' :: ([] : List Char)).getLast? = some '\n' := by
          rw [List.getLast?_append]; rfl
        have := lastOkB_spec _ '\n' hlast hgl
        simp [isWs] at this
      have hchr : List.Chain' lineStep ('\n' :: joinNl (m :: ms)) :=
        List.Chain'.right_of_append hch
      have hj_ch : List.Chain' lineStep (joinNl (m :: ms)) := hchr.tail
      have hj_head : headOkB (joinNl (m :: ms)) = true := by
        refine headOkB_build _ (fun y hy => ?_)
        have := hchr.rel_head? (y := y) (by rw [hy]; rfl)
        exact this.1 rfl
      have hj_last : lastOkB (joinNl (m :: ms)) = true := by
        have hrev : (l ++ '\n' :: joinNl (m :: ms)).reverse =
            (joinNl (m :: ms)).reverse ++ ('\n' :: l.reverse) := by
          rw [List.reverse_append, List.reverse_cons, List.append_assoc]
          simp
        unfold lastOkB at hlast ⊢
        exact headOkB_of_pre ((joinNl (m :: ms)).reverse)
          ((l ++ '\n' :: joinNl (m :: ms)).reverse) ('\n' :: l.reverse)
          hrev hlast
      have hrest := ih (fun z hz => hnl z (List.mem_cons_of_mem l hz))
        hj_ch hj_head hj_last hj_ne
      intro z hz
      rcases List.mem_cons.mp hz with h2 | h2
      · subst h2; exact hlprops
      · exact hrest z h2

theorem dtw_length_le (l : List Char) : (dropTrailingWs l).length ≤ l.length := by
  obtain ⟨r, hr⟩ := dtw_append l
  conv_rhs => rw [hr]
  rw [List.length_append]
  exact Nat.le_add_right _ _

theorem chunk_pre (t : List Char) (n : Nat) :
    ∃ rc, t = dropTrailingWs (t.take n) ++ rc := by
  obtain ⟨r1, hr1⟩ := dtw_append (t.take n)
  refine ⟨r1 ++ t.drop n, ?_⟩
  rw [← List.append_assoc, ← hr1, List.take_append_drop]

theorem take_pre_of_pre (t q : List Char) (k : Nat) (h : ∃ r, q = t ++ r) :
    ∃ r, q = t.take k ++ r := by
  obtain ⟨r, hr⟩ := h
  refine ⟨t.drop k ++ r, ?_⟩
  rw [← List.append_assoc, List.take_append_drop]
  exact hr

theorem tdc_take_branch (t q : List Char) (k : Nat) (hpre : ∃ r, q = t ++ r)
    (hq : headOkB q = true) (hlen : t.length ≤ 520) :
    ∃ r2, q = trimDanglingConnector (t.take k) ++ r2 ∧
      trimWs (trimDanglingConnector (t.take k)) = trimDanglingConnector (t.take k) ∧
      (trimDanglingConnector (t.take k)).length ≤ 520 := by
  obtain ⟨r2, h1, h2, h3⟩ := tdc_pre (t.take k) q (take_pre_of_pre t q k hpre) hq
  have h4 : (t.take k).length ≤ t.length := by
    rw [List.length_take]; exact min_le_right _ _
  exact ⟨r2, h1, h2, by omega⟩

theorem truncate_shape (t : List Char) (htrim : headOkB t = true) :
    ∃ core r, (truncateAtSentenceBoundary t 520 = core ∨
        truncateAtSentenceBoundary t 520 = core ++ ['…']) ∧
      t = core ++ r ∧ trimWs core = core ∧ core.length ≤ 520 := by
  unfold truncateAtSentenceBoundary
  by_cases hlen : t.length ≤ 520
  · rw [if_pos hlen]
    obtain ⟨r2, h1, h2, h3⟩ := tdc_pre t t ⟨[], by simp⟩ htrim
    exact ⟨trimDanglingConnector t, r2, Or.inl rfl, h1, h2, by omega⟩
  · rw [if_neg hlen]
    dsimp only
    set ch := dropTrailingWs (t.take 520) with hch
    have hchlen : ch.length ≤ 520 :=
      (dtw_length_le (t.take 520)).trans
        (by rw [List.length_take]; exact min_le_left _ _)
    have hcpre : ∃ rc, t = ch ++ rc := chunk_pre t 520
    set lp := max (max (max (max (lastIndexOfC '.' ch) (lastIndexOfC '!' ch))
      (lastIndexOfC '?' ch)) (lastIndexOfC ';' ch)) (lastIndexOfC ':' ch) with hlp
    by_cases hpunct : lp ≥ ((520 * 55 / 100 : Nat) : Int)
    · rw [if_pos hpunct]
      obtain ⟨r2, h1, h2, h3⟩ :=
        tdc_take_branch ch t (lp.toNat + 1) hcpre htrim hchlen
      exact ⟨trimDanglingConnector (ch.take (lp.toNat + 1)), r2, Or.inl rfl, h1, h2, h3⟩
    · rw [if_neg hpunct]
      by_cases hsp : lastIndexOfC ' ' ch > 0
      · rw [if_pos hsp]
        obtain ⟨r2, h1, h2, h3⟩ :=
          tdc_take_branch ch t (lastIndexOfC ' ' ch).toNat hcpre htrim hchlen
        exact ⟨trimDanglingConnector (ch.take (lastIndexOfC ' ' ch).toNat), r2,
          Or.inr rfl, h1, h2, h3⟩
      · rw [if_neg hsp]
        obtain ⟨r2, h1, h2, h3⟩ := tdc_pre ch t hcpre htrim
        exact ⟨trimDanglingConnector ch, r2, Or.inr rfl, h1, h2, by omega⟩

theorem lineMode_shape (s : List Char) (hT : hasTable (stripFillers s) = false) :
    ∃ core r, (makeConciseReply s = core ∨ makeConciseReply s = core ++ ['…']) ∧
      compactOf s = core ++ r ∧ trimWs core = core ∧ core.length ≤ 520 := by
  have hmcr : makeConciseReply s = truncateAtSentenceBoundary (compactOf s) 520 := by
    unfold makeConciseReply
    dsimp only
    rw [hT]
    simp
  rw [hmcr]
  exact truncate_shape (compactOf s) (compact_headOk s)

/-- C2: in line mode (the table-row pattern does not match the
filler-stripped text), the shaper's output is a prefix of the join of the
at most six non-empty trimmed kept lines (`compactOf`), possibly followed
by one trailing ellipsis marker; the prefix is at most 520 characters,
the whole output at most 521, and the output spans at most six lines
(at most five newlines). -/
theorem c2_line_mode_bounds (s : List Char)
    (hT : hasTable (stripFillers s) = false) :
    ∃ core rest,
      (makeConciseReply s = core ∨ makeConciseReply s = core ++ ['…']) ∧
      compactOf s = core ++ rest ∧
      core.length ≤ 520 ∧
      (makeConciseReply s).length ≤ 521 ∧
      List.count '\n' (makeConciseReply s) ≤ 5 := by
  obtain ⟨core, rest, hshape, hpre, htrimcore, hlen⟩ := lineMode_shape s hT
  refine ⟨core, rest, hshape, hpre, hlen, ?_, ?_⟩
  · rcases hshape with h | h
    · rw [h]; omega
    · rw [h, List.length_append, List.length_singleton]; omega
  · have hc : List.count '\n' core ≤ List.count '\n' (compactOf s) := by
      rw [hpre]
      exact (List.sublist_append_left core rest).count_le '\n'
    have h5 := countNl_compact s
    rcases hshape with h | h
    · rw [h]; omega
    · rw [h, List.count_append]
      have hm : List.count '\n' ['…'] = 0 := by decide
      omega

/-- Witness for C2 at a concrete line-mode input. -/
theorem c2_line_mode_bounds_witness :
    hasTable (stripFillers "Hola mundo.".toList) = false ∧
    (∃ core rest,
      (makeConciseReply "Hola mundo.".toList = core ∨
        makeConciseReply "Hola mundo.".toList = core ++ ['…']) ∧
      compactOf "Hola mundo.".toList = core ++ rest ∧
      core.length ≤ 520 ∧
      (makeConciseReply "Hola mundo.".toList).length ≤ 521 ∧
      List.count '\n' (makeConciseReply "Hola mundo.".toList) ≤ 5) :=
  ⟨by decide, c2_line_mode_bounds "Hola mundo.".toList (by decide)⟩

/-- C10: in line mode the shaper's output carries no leading or trailing
whitespace, and every line of a non-empty output is non-empty and
trimmed, truncation and connector-trimming included. (An empty output —
for example from an empty input — has no lines.) -/
theorem c10_output_lines_clean (s : List Char)
    (hT : hasTable (stripFillers s) = false) :
    trimWs (makeConciseReply s) = makeConciseReply s ∧
    ∀ l ∈ splitNl (makeConciseReply s),
      trimWs l = l ∧ (makeConciseReply s ≠ [] → l ≠ []) := by
  obtain ⟨core, rest, hshape, hpre, htrimcore, hlen⟩ := lineMode_shape s hT
  have hchain_compact : List.Chain' lineStep (compactOf s) :=
    chain_joinNl (cleanLines s) (cleanLines_props s)
  have hchain_core : List.Chain' lineStep core := by
    rw [hpre] at hchain_compact
    exact hchain_compact.left_of_append
  have hout_trim : trimWs (makeConciseReply s) = makeConciseReply s := by
    rcases hshape with h | h
    · rw [h]; exact htrimcore
    · rw [h]
      refine trimWs_eq_self _ ?_ ?_
      · refine headOkB_build _ (fun y hy => ?_)
        cases hcore : core with
        | nil =>
          rw [hcore] at hy
          simp only [List.nil_append, List.head?_cons, Option.some.injEq] at hy
          rw [← hy]; decide
        | cons c cs =>
          rw [hcore] at hy
          simp only [List.cons_append, List.head?_cons, Option.some.injEq] at hy
          have hh : headOkB core = true := by
            rw [← htrimcore]; exact trimWs_headOk core
          rw [hcore] at hh
          rw [← hy]
          exact headOkB_spec (c :: cs) c hh rfl
      · refine lastOkB_build _ (fun y hy => ?_)
        rw [List.getLast?_append] at hy
        have hy2 : y = '…' := by
          cases core.getLast? <;> simpa [Option.or] using hy.symm
        rw [hy2]; decide
  have hchain_out : List.Chain' lineStep (makeConciseReply s) := by
    rcases hshape with h | h
    · rw [h]; exact hchain_core
    · rw [h]
      refine List.Chain'.append hchain_core (List.chain'_singleton '…') ?_
      intro x hx y hy
      have hy' : y = '…' := by have := hy; simp at this; exact this.symm
      subst hy'
      exact ⟨fun _ => by decide, fun _ => by decide⟩
  refine ⟨hout_trim, ?_⟩
  by_cases hne : makeConciseReply s = []
  · rw [hne]
    intro l hl
    have hl' : l = [] := by simpa [splitNl] using hl
    subst hl'
    exact ⟨rfl, fun h => absurd rfl h⟩
  · have hgood := goodLines_of_chain (splitNl (makeConciseReply s))
      (splitNl_no_nl _)
      (by rw [joinNl_splitNl]; exact hchain_out)
      (by rw [joinNl_splitNl, ← hout_trim]; exact trimWs_headOk _)
      (by rw [joinNl_splitNl, ← hout_trim]; exact trimWs_lastOk _)
      (by rw [joinNl_splitNl]; exact hne)
    intro l hl
    exact ⟨(hgood l hl).2, fun _ => (hgood l hl).1⟩

/-- Witness for C10 at a concrete two-line line-mode input. -/
theorem c10_output_lines_clean_witness :
    hasTable (stripFillers "Dos\nlineas x".toList) = false ∧
    (trimWs (makeConciseReply "Dos\nlineas x".toList) =
      makeConciseReply "Dos\nlineas x".toList ∧
    ∀ l ∈ splitNl (makeConciseReply "Dos\nlineas x".toList),
      trimWs l = l ∧ (makeConciseReply "Dos\nlineas x".toList ≠ [] → l ≠ [])) :=
  ⟨by decide, c10_output_lines_clean "Dos\nlineas x".toList (by decide)⟩

theorem escLt_append (a b : List Char) : escLt (a ++ b) = escLt a ++ escLt b := by
  induction a with
  | nil => simp [escLt]
  | cons c a' ih =>
    by_cases h : c = '<' <;> simp [escLt, h, ih]

theorem escGt_append (a b : List Char) : escGt (a ++ b) = escGt a ++ escGt b := by
  induction a with
  | nil => simp [escGt]
  | cons c a' ih =>
    by_cases h : c = '>' <;> simp [escGt, h, ih]

theorem escapeHtml_cons (c : Char) (r : List Char) :
    escapeHtml (c :: r) =
      (if c = '&' then "&amp;".toList
       else if c = '<' then "&lt;".toList
       else if c = '>' then "&gt;".toList
       else [c]) ++ escapeHtml r := by
  by_cases h1 : c = '&'
  · subst h1
    simp [escapeHtml, escAmp, escLt, escGt]
  · by_cases h2 : c = '<'
    · subst h2
      simp [escapeHtml, escAmp, escLt, escGt, h1]
    · by_cases h3 : c = '>'
      · subst h3
        simp [escapeHtml, escAmp, escLt, escGt, h1, h2]
      · simp [escapeHtml, escAmp, escLt, escGt, h1, h2, h3]

theorem ampOk_cons_ne (c : Char) (x : List Char) (h : c ≠ '&') :
    ampOk (c :: x) = ampOk x := by
  simp [ampOk, h]

theorem ampOk_amp_entity (x : List Char) : ampOk ("&amp;".toList ++ x) = ampOk x := by
  show ampOk ('&' :: 'a' :: 'm' :: 'p' :: ';' :: x) = ampOk x
  simp [ampOk, List.isPrefixOf]

theorem ampOk_lt_entity (x : List Char) : ampOk ("&lt;".toList ++ x) = ampOk x := by
  show ampOk ('&' :: 'l' :: 't' :: ';' :: x) = ampOk x
  simp [ampOk, List.isPrefixOf]

theorem ampOk_gt_entity (x : List Char) : ampOk ("&gt;".toList ++ x) = ampOk x := by
  show ampOk ('&' :: 'g' :: 't' :: ';' :: x) = ampOk x
  simp [ampOk, List.isPrefixOf]

/-- C1: the Markdown Renderer escapes every `&`, `<`, `>` before any
structural substitution runs (`escapeHtml` is step 1 of
`formatBotText`), so the text every later step operates on contains no
`<` and no `>` at all, and every `&` in it heads one of the renderer's
own escape entities. In particular no raw `<script`, `<img`, or bare `&`
of the input can survive into the output: every later step only copies
this escaped text and inserts the renderer's fixed structural tags. -/
theorem c1_escape_before_structure (t : List Char) :
    '<' ∉ escapeHtml t ∧ '>' ∉ escapeHtml t ∧ ampOk (escapeHtml t) = true := by
  induction t with
  | nil => refine ⟨by decide, by decide, by decide⟩
  | cons c r ih =>
    obtain ⟨ih1, ih2, ih3⟩ := ih
    rw [escapeHtml_cons]
    by_cases h1 : c = '&'
    · subst h1
      simp only [reduceIte]
      refine ⟨?_, ?_, ?_⟩
      · intro hmem
        rcases List.mem_append.mp hmem with h | h
        · simp at h
        · exact ih1 h
      · intro hmem
        rcases List.mem_append.mp hmem with h | h
        · simp at h
        · exact ih2 h
      · rw [ampOk_amp_entity]; exact ih3
    · by_cases h2 : c = '<'
      · subst h2
        simp only [reduceIte]
        refine ⟨?_, ?_, ?_⟩
        · intro hmem
          rcases List.mem_append.mp hmem with h | h
          · simp at h
          · exact ih1 h
        · intro hmem
          rcases List.mem_append.mp hmem with h | h
          · simp at h
          · exact ih2 h
        · rw [if_neg h1, ampOk_lt_entity]; exact ih3
      · by_cases h3 : c = '>'
        · subst h3
          simp only [reduceIte]
          refine ⟨?_, ?_, ?_⟩
          · intro hmem
            rcases List.mem_append.mp hmem with h | h
            · simp at h
            · exact ih1 h
          · intro hmem
            rcases List.mem_append.mp hmem with h | h
            · simp at h
            · exact ih2 h
          · rw [if_neg h1, if_neg h2, ampOk_gt_entity]; exact ih3
        · simp only [if_neg h1, if_neg h2, if_neg h3]
          refine ⟨?_, ?_, ?_⟩
          · intro hmem
            rcases List.mem_append.mp hmem with h | h
            · simp at h; exact h2 h.symm
            · exact ih1 h
          · intro hmem
            rcases List.mem_append.mp hmem with h | h
            · simp at h; exact h3 h.symm
            · exact ih2 h
          · rw [List.singleton_append, ampOk_cons_ne c _ h1]; exact ih3

theorem optIdx_omax (a b : Option Nat) :
    optIdx (omax a b) = max (optIdx a) (optIdx b) := by
  cases a with
  | none =>
    cases b with
    | none => simp [omax, optIdx]
    | some j =>
      simp only [omax, optIdx]
      exact (max_eq_right (by omega)).symm
  | some i =>
    cases b with
    | none =>
      simp only [omax, optIdx]
      exact (max_eq_left (by omega)).symm
    | some j =>
      simp only [omax, optIdx]
      exact_mod_cast Nat.cast_max i j

theorem lastIdx_or (p q : Char → Bool) (l : List Char) :
    lastIdx? (fun c => p c || q c) l = omax (lastIdx? p l) (lastIdx? q l) := by
  induction l with
  | nil => rfl
  | cons c r ih =>
    simp only [lastIdx?]
    rw [ih]
    cases hp : lastIdx? p r with
    | some i =>
      cases hq : lastIdx? q r with
      | some j => simp [omax, Nat.succ_max_succ]
      | none =>
        by_cases hqc : q c <;> simp [omax, hqc]
    | none =>
      cases hq : lastIdx? q r with
      | some j =>
        by_cases hpc : p c <;> simp [omax, hpc]
      | none =>
        by_cases hpc : p c <;> by_cases hqc : q c <;> simp [omax, hpc, hqc]

theorem lastPunct_eq (l : List Char) :
    max (max (max (max (lastIndexOfC '.' l) (lastIndexOfC '!' l))
      (lastIndexOfC '?' l)) (lastIndexOfC ';' l)) (lastIndexOfC ':' l) =
    optIdx (lastIdx? isSentencePunct l) := by
  have e1 : lastIdx? isSentencePunct l =
      omax (omax (omax (omax (lastIdx? (fun c => c = '.') l)
        (lastIdx? (fun c => c = '!') l)) (lastIdx? (fun c => c = '?') l))
        (lastIdx? (fun c => c = ';') l)) (lastIdx? (fun c => c = ':') l) := by
    rw [← lastIdx_or, ← lastIdx_or, ← lastIdx_or, ← lastIdx_or]
    rfl
  rw [e1, optIdx_omax, optIdx_omax, optIdx_omax, optIdx_omax]
  rfl

theorem space_branch_eq (ch : List Char) :
    (if lastIndexOfC ' ' ch > 0 then
      trimDanglingConnector (ch.take (lastIndexOfC ' ' ch).toNat) ++ ['…']
    else trimDanglingConnector ch ++ ['…']) = spaceCutSpec ch := by
  unfold spaceCutSpec
  cases hs : lastIdx? (fun c => c = ' ') ch with
  | some j =>
    have hval : lastIndexOfC ' ' ch = (j : Int) := by
      unfold lastIndexOfC; rw [hs]; rfl
    rw [hval]
    dsimp only
    by_cases hj : 0 < j
    · rw [if_pos (by exact_mod_cast hj), if_pos hj, Int.toNat_natCast]
    · rw [if_neg (by exact_mod_cast hj), if_neg hj]
  | none =>
    have hval : lastIndexOfC ' ' ch = -1 := by
      unfold lastIndexOfC; rw [hs]; rfl
    dsimp only
    rw [hval, if_neg (by omega)]

/-- C4 (amended): for a line-mode input whose joined kept text exceeds
520 characters, the shaper's output is exactly the amended three-branch
rule on the chunk (the first 520 characters with trailing whitespace
removed): cut inclusively at the last sentence mark when its index
reaches `286 = ⌊0.55 · 520⌋` and trim a dangling connector; otherwise cut
at the last space character at positive index, trim a dangling connector
there too, and append the ellipsis; and when no such space exists, keep
the whole chunk, connector-trimmed, with the ellipsis appended. -/
theorem c4_amended_truncation (s : List Char)
    (hT : hasTable (stripFillers s) = false)
    (hL : 520 < (compactOf s).length) :
    makeConciseReply s = sentenceCutSpec (dropTrailingWs ((compactOf s).take 520)) := by
  have hmcr : makeConciseReply s = truncateAtSentenceBoundary (compactOf s) 520 := by
    unfold makeConciseReply
    dsimp only
    rw [hT]
    simp
  rw [hmcr]
  unfold truncateAtSentenceBoundary
  rw [if_neg (by omega)]
  dsimp only
  rw [lastPunct_eq]
  have h286 : ((520 * 55 / 100 : Nat) : Int) = 286 := by norm_num
  rw [h286]
  unfold sentenceCutSpec
  cases hp : lastIdx? isSentencePunct (dropTrailingWs ((compactOf s).take 520)) with
  | some i =>
    simp only [optIdx]
    by_cases hge : 286 ≤ i
    · rw [if_pos (by exact_mod_cast hge), if_pos hge, Int.toNat_natCast]
    · rw [if_neg (by exact_mod_cast hge), if_neg hge]
      exact space_branch_eq _
  | none =>
    simp only [optIdx]
    rw [if_neg (by omega)]
    exact space_branch_eq _

/-- Witness for the amended C4 at a 521-character line-mode input. -/
theorem c4_amended_truncation_witness :
    hasTable (stripFillers (List.replicate 521 'a')) = false ∧
    520 < (compactOf (List.replicate 521 'a')).length ∧
    makeConciseReply (List.replicate 521 'a') =
      sentenceCutSpec (dropTrailingWs ((compactOf (List.replicate 521 'a')).take 520)) :=
  ⟨by decide, by decide, c4_amended_truncation (List.replicate 521 'a') (by decide) (by decide)⟩

/-- C9 (amended): shaping is idempotent on an already-shaped reply — no
filler prefix (neither filler replacement fires), trimmed, line mode, at
most six lines that are each non-empty and trimmed, at most 520
characters — provided the text is also a fixed point of the
connector-trimming step (it does not end in a whitespace-preceded
connector word; the strip removes only one trailing connector per pass,
which is what the counterexample exploits). Such a reply is in fact a
fixed point of the shaper, so shaping twice equals shaping once. -/
theorem c9_amended_idempotent (s : List Char)
    (h1 : stripFiller1 s = s) (h2 : stripFiller2 s = s) (h3 : trimWs s = s)
    (h4 : hasTable s = false)
    (h5 : ∀ l ∈ splitNl s, l ≠ [] ∧ trimWs l = l)
    (h6 : (splitNl s).length ≤ 6)
    (h7 : s.length ≤ 520)
    (h8 : trimDanglingConnector s = s) :
    makeConciseReply s = s ∧
    makeConciseReply (makeConciseReply s) = makeConciseReply s := by
  have hsf : stripFillers s = s := by
    unfold stripFillers
    rw [h1, h2, h3]
  have hclean : cleanLines s = splitNl s := by
    unfold cleanLines
    rw [hsf]
    have hmap : (splitNl s).map trimWs = splitNl s := by
      have := List.map_congr_left (f := trimWs) (g := id)
        (l := splitNl s) (fun l hl => (h5 l hl).2)
      simpa using this
    rw [hmap]
    have hfil : (splitNl s).filter (fun l => !l.isEmpty) = splitNl s := by
      refine List.filter_eq_self.mpr (fun l hl => ?_)
      have := (h5 l hl).1
      simpa using this
    rw [hfil]
    exact List.take_of_length_le h6
  have hcompact : compactOf s = s := by
    unfold compactOf
    rw [hclean]
    exact joinNl_splitNl s
  have key : makeConciseReply s = s := by
    unfold makeConciseReply
    dsimp only
    rw [hsf, h4]
    simp only [Bool.false_eq_true, if_false]
    unfold truncateAtSentenceBoundary
    rw [hcompact, if_pos h7]
    exact h8
  exact ⟨key, by rw [key, key]⟩

/-- Witness for the amended C9 at a concrete shaped reply. -/
theorem c9_amended_idempotent_witness :
    makeConciseReply "El oro es denso.".toList = "El oro es denso.".toList ∧
    makeConciseReply (makeConciseReply "El oro es denso.".toList) =
      makeConciseReply "El oro es denso.".toList :=
  c9_amended_idempotent "El oro es denso.".toList (by decide) (by decide)
    (by decide) (by decide) (by decide) (by decide) (by decide) (by decide)
